import Mathlib

/-!
# cache2go: cache entries and the table registry

A shallow embedding of `cacheitem.go` (the `CacheItem` entry, its constructor,
`KeepAlive`, the getters and `SetAboutToExpireCallback`) and of `cache.go`
(the process-wide table registry and `Cache`).

Conventions of the embedding.

* `time.Now()` is an explicit argument `now`: every operation is run at a clock
  reading supplied by the caller of the model.
* `time.Time` and `time.Duration` are integers (nanoseconds).
* `int64` fields are integers; arithmetic on them is wrapped by `wrapInt64`,
  which is what Go does on signed overflow.
* `interface{}` keys and payloads and `func(interface{})` callbacks are values
  of arbitrary types `K`, `D` and `F`; a nil callback is `none`.
* Pointers to tables are addresses into a heap of allocated tables.
* The `sync.RWMutex` sections are the atomic steps of the model.
-/

namespace Cache2go

/-! ## Machine integers and primitive types -/

/-- Two's-complement wrap of an integer into the `int64` range
`[-2^63, 2^63)`: the result of Go's signed 64-bit arithmetic. -/
def wrapInt64 (x : Int) : Int :=
  (x + 9223372036854775808) % 18446744073709551616 - 9223372036854775808

/-- The largest `int64`, `math.MaxInt64 = 2^63 - 1`. -/
def maxInt64 : Int := 9223372036854775807

/-- The smallest `int64`, `math.MinInt64 = -2^63`. -/
def minInt64 : Int := -9223372036854775808

/-- A clock reading (`time.Time`), in nanoseconds. -/
abbrev Time := Int

/-- A `time.Duration`, in nanoseconds. -/
abbrev Duration := Int

/-! ## cacheitem.go -/

/-- The struct `CacheItem` (cacheitem.go, lines 17-44). The embedded
`sync.RWMutex` carries no data; it makes each method body one atomic step. -/
structure CacheItem (K D F : Type) where
  /-- The item's key. -/
  key : K
  /-- The item's data. -/
  data : D
  /-- How long the item lives in the cache when not accessed. -/
  lifeSpan : Duration
  /-- Creation timestamp. -/
  createdOn : Time
  /-- Last access timestamp. -/
  accessedOn : Time
  /-- How often the item was accessed (`int64`). -/
  accessCount : Int
  /-- Callback triggered right before removing the item; `none` is nil. -/
  aboutToExpire : Option F
  deriving DecidableEq

variable {K D F : Type}

/-- `NewCacheItem` (cacheitem.go, lines 52-63); `now` is the value of
`time.Now()` read on line 53. -/
def NewCacheItem (now : Time) (key : K) (lifeSpan : Duration) (data : D) :
    CacheItem K D F :=
  { key := key
    lifeSpan := lifeSpan
    createdOn := now
    accessedOn := now
    accessCount := 0
    aboutToExpire := none
    data := data }

namespace CacheItem

/-- `KeepAlive` (cacheitem.go, lines 67-72); `now` is the value of
`time.Now()` read on line 70, and `accessCount++` is an `int64` increment. -/
def KeepAlive (now : Time) (item : CacheItem K D F) : CacheItem K D F :=
  { item with
    accessedOn := now
    accessCount := wrapInt64 (item.accessCount + 1) }

/-- `LifeSpan` (cacheitem.go, lines 76-79). -/
def LifeSpan (item : CacheItem K D F) : Duration := item.lifeSpan

/-- `AccessedOn` (cacheitem.go, lines 83-87). -/
def AccessedOn (item : CacheItem K D F) : Time := item.accessedOn

/-- `CreatedOn` (cacheitem.go, lines 91-94). -/
def CreatedOn (item : CacheItem K D F) : Time := item.createdOn

/-- `AccessCount` (cacheitem.go, lines 98-102). -/
def AccessCount (item : CacheItem K D F) : Int := item.accessCount

/-- `Key` (cacheitem.go, lines 106-109). -/
def Key (item : CacheItem K D F) : K := item.key

/-- `Data` (cacheitem.go, lines 113-116). -/
def Data (item : CacheItem K D F) : D := item.data

/-- `SetAboutToExpireCallback` (cacheitem.go, lines 121-125). -/
def SetAboutToExpireCallback (f : Option F) (item : CacheItem K D F) :
    CacheItem K D F :=
  { item with aboutToExpire := f }

end CacheItem

/-- One call of a method of `CacheItem`. The six getters are calls too: they
return a value to the caller and write no field. -/
inductive ItemOp (F : Type) where
  | KeepAlive
  | LifeSpan
  | AccessedOn
  | CreatedOn
  | AccessCount
  | Key
  | Data
  | SetAboutToExpireCallback (f : Option F)
  deriving DecidableEq

namespace ItemOp

/-- The entry after the call `op`, made when the clock reads `now`. Only
`KeepAlive` reads the clock. -/
def exec (now : Time) (op : ItemOp F) (item : CacheItem K D F) : CacheItem K D F :=
  match op with
  | KeepAlive => item.KeepAlive now
  | SetAboutToExpireCallback f => item.SetAboutToExpireCallback f
  | LifeSpan => item
  | AccessedOn => item
  | CreatedOn => item
  | AccessCount => item
  | Key => item
  | Data => item

/-- Whether the call is a `KeepAlive`. -/
def isKeepAlive : ItemOp F → Bool
  | KeepAlive => true
  | _ => false

end ItemOp

/-- A history of calls on one entry, each paired with the clock reading at the
moment of the call, run in order. -/
def runOps (ops : List (Time × ItemOp F)) (item : CacheItem K D F) : CacheItem K D F :=
  ops.foldl (fun it p => p.2.exec p.1 it) item

/-- The number of `KeepAlive` calls in a history. -/
def keepAliveCalls (ops : List (Time × ItemOp F)) : Nat :=
  ops.countP (fun p => p.2.isKeepAlive)

/-- An entry whose counter has reached `math.MaxInt64`. -/
def entryAtMaxCount : CacheItem Nat Nat Nat :=
  { key := 0
    data := 0
    lifeSpan := 0
    createdOn := 0
    accessedOn := 0
    accessCount := maxInt64
    aboutToExpire := none }

/-! ## Go maps -/

/-- A Go map `map[κ]ν`, kept as the list of its entries, newest first. Reading
takes the first entry of a key and writing drops every older entry of it, so
the entries that can be read have distinct keys, as in a Go map. -/
structure GoMap (κ ν : Type) where
  entries : List (κ × ν)
  deriving DecidableEq

namespace GoMap

variable {κ ν : Type}

/-- The result of `make(map[κ]ν)`: a map with no entry. -/
def empty : GoMap κ ν := ⟨[]⟩

/-- The first value stored under `k` in a list of entries. -/
def find [DecidableEq κ] (k : κ) : List (κ × ν) → Option ν
  | [] => none
  | e :: rest => if e.1 = k then some e.2 else find k rest

/-- The two-valued read `v, ok := m[k]`: `some v` when `ok`, `none` otherwise. -/
def get [DecidableEq κ] (m : GoMap κ ν) (k : κ) : Option ν := find k m.entries

/-- The assignment `m[k] = v`. -/
def set [DecidableEq κ] (m : GoMap κ ν) (k : κ) (v : ν) : GoMap κ ν :=
  ⟨(k, v) :: m.entries.filter (fun e => e.1 ≠ k)⟩

/-- The keys of the map, each listed once. -/
def keys [DecidableEq κ] (m : GoMap κ ν) : List κ := (m.entries.map Prod.fst).dedup

/-- The builtin `len(m)`: the number of keys. -/
def len [DecidableEq κ] (m : GoMap κ ν) : Nat := m.keys.length

end GoMap

/-! ## cache.go -/

/-- A `*CacheTable`: the address of an allocated table. -/
abbrev Ptr := Nat

/-- Modelled from the spec: the declaration of the struct `CacheTable` is not
among the sources; these are the two fields that the composite literal in
`Cache` (cache.go, lines 38-41) sets, `name` being the table's identity and
`items` its mapping from key to owned entry. Every other field of the struct
has its zero value after that literal and no code here reads one. The entries
are owned by the table and are held by value. -/
structure CacheTable (K D F : Type) where
  name : String
  items : GoMap K (CacheItem K D F)
  deriving DecidableEq

/-- The package state of cache.go: the tables allocated so far (a `*CacheTable`
is an index into `heap`; `&CacheTable{...}` allocates at the end) and the
package variable `cache` (line 20). The package variable `mutex` (line 21)
carries no data. -/
structure Registry (K D F : Type) where
  heap : List (CacheTable K D F)
  cache : GoMap String Ptr
  deriving DecidableEq

namespace Registry

/-- The package state at program start: nothing allocated, and `cache` as
made on line 20. -/
def initial : Registry K D F := { heap := [], cache := GoMap.empty }

/-- The table struct behind a pointer, when the pointer is allocated. -/
def deref (s : Registry K D F) (t : Ptr) : Option (CacheTable K D F) := s.heap[t]?

end Registry

/-- The section of `Cache` under the read lock (cache.go, lines 28-31): the
first lookup `t, ok := cache[table]`; the result is `some t` when `ok`. -/
def Cache.readSection (table : String) (s : Registry K D F) : Option Ptr :=
  s.cache.get table

/-- The section of `Cache` under the write lock (cache.go, lines 34-44): the
second lookup, and on a second miss the construction and the registration of
a new table. Returns `t` and the new package state. -/
def Cache.writeSection (table : String) (s : Registry K D F) : Ptr × Registry K D F :=
  match s.cache.get table with
  | some t => (t, s)
  | none =>
    let t : Ptr := s.heap.length
    (t, { heap := s.heap ++ [{ name := table, items := GoMap.empty }]
          cache := s.cache.set table t })

/-- `Cache` (cache.go, lines 27-48) run without interference: the read section
and, when it misses (line 33), the write section right after it. Returns the
pointer returned on line 47 and the new package state. -/
def Cache (table : String) (s : Registry K D F) : Ptr × Registry K D F :=
  match Cache.readSection table s with
  | some t => (t, s)
  | none => Cache.writeSection table s

/-- A sequence of `Cache` calls made one after another: the pointers returned,
in order, and the package state after the last call. -/
def runCache : List String → Registry K D F → List Ptr × Registry K D F
  | [], s => ([], s)
  | table :: rest, s =>
    let r := Cache table s
    let rs := runCache rest r.2
    (r.1 :: rs.1, rs.2)

/-- The heap and the map of a package state agree: every allocated table is
registered under its own name at its own address, and every registered
pointer is the address of an allocated table of that name. -/
def Registry.Consistent (s : Registry K D F) : Prop :=
  (∀ t tb, s.deref t = some tb → s.cache.get tb.name = some t) ∧
  (∀ table t, s.cache.get table = some t → ∃ tb, s.deref t = some tb ∧ tb.name = table)

/-- A package state with one registered table, `"sessions"`, that holds one
entry. -/
def registryWithSessions : Registry Nat Nat Nat :=
  { heap := [{ name := "sessions", items := ⟨[(7, NewCacheItem 3 7 50 20)]⟩ }]
    cache := ⟨[("sessions", 0)]⟩ }

/-! ## Concurrent calls of `Cache`

The two lock-protected sections of `Cache` are the atomic steps of a call; a
goroutine is between them only on a miss of the first lookup. -/

/-- Where one goroutine stands in its call of `Cache`. -/
inductive CallState where
  /-- Called, about to take the read lock (line 28). -/
  | atRLock
  /-- The first lookup missed (line 33); about to take the write lock (line 34). -/
  | atLock
  /-- Returned `t` (line 47). -/
  | returned (t : Ptr)
  deriving DecidableEq

/-- The next lock-protected section of one call of `Cache table`; a call that
has returned does nothing more. -/
def CallState.step (table : String) (c : CallState) (s : Registry K D F) :
    CallState × Registry K D F :=
  match c with
  | .atRLock =>
    match Cache.readSection table s with
    | some t => (.returned t, s)
    | none => (.atLock, s)
  | .atLock =>
    let r := Cache.writeSection table s
    (.returned r.1, r.2)
  | .returned t => (.returned t, s)

/-- The goroutines calling `Cache`, numbered from 0, and the package state
they share. -/
structure System (K D F : Type) where
  calls : List CallState
  reg : Registry K D F
  deriving DecidableEq

namespace System

/-- The system when `n` goroutines have just called `Cache`. -/
def start (n : Nat) (s : Registry K D F) : System K D F :=
  { calls := List.replicate n .atRLock, reg := s }

/-- Goroutine `i` wins the lock it is waiting for and runs that section. -/
def step (table : String) (i : Nat) (sys : System K D F) : System K D F :=
  match sys.calls[i]? with
  | none => sys
  | some c =>
    let r := c.step table sys.reg
    { calls := sys.calls.set i r.1, reg := r.2 }

/-- The system after the lock acquisitions happen in the order `sched`, a list
of goroutine numbers. -/
def run (table : String) (sched : List Nat) (sys : System K D F) : System K D F :=
  sched.foldl (fun y i => y.step table i) sys

end System

/-- How many of its lock-protected sections a call has behind it; a call
that has returned counts as 2. -/
def CallState.rank : CallState → Nat
  | .atRLock => 0
  | .atLock => 1
  | .returned _ => 2

/-- The rank of goroutine `i`. -/
def System.progress (sys : System K D F) (i : Nat) : Nat :=
  match sys.calls[i]? with
  | some c => c.rank
  | none => 0

/-- Whether every goroutine has returned from its call. -/
def System.allReturned (sys : System K D F) : Bool :=
  sys.calls.all (fun c => c.rank == 2)

/-- The invariant of `n` concurrent calls of `Cache table` started in the
package state `s0`: the package state is `s0` or the state after one
uninterrupted `Cache table`; a goroutine waits for the write lock only when
`table` was not registered in `s0`; and a goroutine that has returned has
returned the pointer of that one call, the package state being the one after
it. -/
def System.Coherent (table : String) (s0 : Registry K D F) (sys : System K D F) : Prop :=
  (sys.reg = s0 ∨ sys.reg = (Cache table s0).2) ∧
  ∀ c ∈ sys.calls,
    c = .atRLock ∨ (c = .atLock ∧ s0.cache.get table = none) ∨
      (c = .returned (Cache table s0).1 ∧ sys.reg = (Cache table s0).2)

/-- The package state reached from the empty registry by the sequence of
`Cache` calls `names`, made one after another. -/
def Registry.after (names : List String) : Registry K D F :=
  (runCache names Registry.initial).2

/-! ## The registry as the specification words it -/

/-- The single-step get-or-insert on the name-to-table map, in the words of the
specification: the existing table for the name if present; otherwise exactly
one new table for the name is constructed and registered. One lookup, under
one lock. -/
def getOrInsert (table : String) (s : Registry K D F) : Ptr × Registry K D F :=
  match s.cache.get table with
  | some t => (t, s)
  | none =>
    (s.heap.length,
      { heap := s.heap ++ [{ name := table, items := GoMap.empty }]
        cache := s.cache.set table s.heap.length })

/-- What the second lookup of `Cache` (cache.go, line 35) finds in a call run
without interference: `none` when the first lookup hits and line 35 is not
run, `some r` when it is run and reads `r`. -/
def Cache.recheck (table : String) (s : Registry K D F) : Option (Option Ptr) :=
  match Cache.readSection table s with
  | some _ => none
  | none => some (s.cache.get table)

/-! ## Lemmas on `int64` wrapping -/

theorem wrapInt64_of_inRange {x : Int} (hlo : minInt64 ≤ x) (hhi : x ≤ maxInt64) :
    wrapInt64 x = x := by
  unfold wrapInt64
  unfold minInt64 at hlo
  unfold maxInt64 at hhi
  omega

theorem wrapInt64_inRange (x : Int) : minInt64 ≤ wrapInt64 x ∧ wrapInt64 x ≤ maxInt64 := by
  unfold wrapInt64 minInt64 maxInt64
  omega

theorem wrapInt64_wrap_add (a b : Int) : wrapInt64 (wrapInt64 a + b) = wrapInt64 (a + b) := by
  unfold wrapInt64
  omega

theorem wrapInt64_max_succ : wrapInt64 (maxInt64 + 1) = minInt64 := by
  decide

/-! ## Lemmas on histories of entry calls -/

@[simp]
theorem runOps_nil (item : CacheItem K D F) : runOps ([] : List (Time × ItemOp F)) item = item :=
  rfl

@[simp]
theorem runOps_cons (p : Time × ItemOp F) (ops : List (Time × ItemOp F))
    (item : CacheItem K D F) : runOps (p :: ops) item = runOps ops (p.2.exec p.1 item) :=
  rfl

theorem keepAliveCalls_cons (p : Time × ItemOp F) (ops : List (Time × ItemOp F)) :
    keepAliveCalls (p :: ops) = keepAliveCalls ops + (if p.2.isKeepAlive then 1 else 0) := by
  unfold keepAliveCalls
  rw [List.countP_cons]

theorem keepAliveCalls_replicate (n : Nat) (now : Time) :
    keepAliveCalls (List.replicate n (now, (ItemOp.KeepAlive : ItemOp F))) = n := by
  induction n with
  | zero => rfl
  | succ n ih =>
    rw [List.replicate_succ, keepAliveCalls_cons, ih]
    rfl

/-- Every call leaves `key`, `data`, `lifeSpan` and `createdOn` as they were. -/
theorem exec_frame (now : Time) (op : ItemOp F) (item : CacheItem K D F) :
    (op.exec now item).key = item.key ∧ (op.exec now item).data = item.data ∧
      (op.exec now item).lifeSpan = item.lifeSpan ∧
      (op.exec now item).createdOn = item.createdOn := by
  cases op <;> exact ⟨rfl, rfl, rfl, rfl⟩

theorem runOps_frame (ops : List (Time × ItemOp F)) (item : CacheItem K D F) :
    (runOps ops item).key = item.key ∧ (runOps ops item).data = item.data ∧
      (runOps ops item).lifeSpan = item.lifeSpan ∧
      (runOps ops item).createdOn = item.createdOn := by
  induction ops generalizing item with
  | nil => exact ⟨rfl, rfl, rfl, rfl⟩
  | cons p ops ih =>
    obtain ⟨h1, h2, h3, h4⟩ := ih (p.2.exec p.1 item)
    obtain ⟨e1, e2, e3, e4⟩ := exec_frame p.1 p.2 item
    rw [runOps_cons]
    exact ⟨h1.trans e1, h2.trans e2, h3.trans e3, h4.trans e4⟩

/-- The counter after one call: `KeepAlive` does the `int64` increment, every
other call leaves it. -/
theorem exec_accessCount (now : Time) (op : ItemOp F) (item : CacheItem K D F) :
    (op.exec now item).accessCount =
      if op.isKeepAlive then wrapInt64 (item.accessCount + 1) else item.accessCount := by
  cases op <;> rfl

/-- The counter after a history of calls on an entry whose counter is an
`int64`: the `int64` sum of the counter and the number of `KeepAlive` calls. -/
theorem runOps_accessCount (ops : List (Time × ItemOp F)) (item : CacheItem K D F)
    (hlo : minInt64 ≤ item.accessCount) (hhi : item.accessCount ≤ maxInt64) :
    (runOps ops item).accessCount = wrapInt64 (item.accessCount + keepAliveCalls ops) := by
  induction ops generalizing item with
  | nil =>
    simp only [runOps_nil, keepAliveCalls, List.countP_nil, Nat.cast_zero, add_zero]
    exact (wrapInt64_of_inRange hlo hhi).symm
  | cons p ops ih =>
    rw [runOps_cons, keepAliveCalls_cons]
    have hstep := exec_accessCount p.1 p.2 item
    by_cases hk : p.2.isKeepAlive = true
    · rw [if_pos hk] at hstep
      have hr := wrapInt64_inRange (item.accessCount + 1)
      rw [ih _ (hstep ▸ hr.1) (hstep ▸ hr.2), hstep, wrapInt64_wrap_add, if_pos hk]
      congr 1
      push_cast
      ring
    · rw [if_neg hk] at hstep
      rw [ih _ (hstep ▸ hlo) (hstep ▸ hhi), hstep, if_neg hk]
      simp

/-- The counter after a history, read through the getter. -/
theorem runOps_AccessCount (ops : List (Time × ItemOp F)) (item : CacheItem K D F)
    (hlo : minInt64 ≤ item.AccessCount) (hhi : item.AccessCount ≤ maxInt64) :
    (runOps ops item).AccessCount = wrapInt64 (item.AccessCount + keepAliveCalls ops) :=
  runOps_accessCount ops item hlo hhi

theorem wrapInt64_two_pow_63 :
    wrapInt64 ((NewCacheItem 0 0 0 0 : CacheItem Nat Nat Nat).AccessCount +
      ((9223372036854775808 : Nat) : Int)) = minInt64 := by
  decide

theorem wrapInt64_two_pow_63_pred :
    wrapInt64 ((NewCacheItem 0 0 0 0 : CacheItem Nat Nat Nat).AccessCount +
      ((9223372036854775807 : Nat) : Int)) = maxInt64 := by
  decide

/-- The counter `math.MaxInt64` is reached from a fresh entry by `2^63 - 1`
`KeepAlive` calls. -/
theorem maxInt64_reachable :
    (runOps (List.replicate 9223372036854775807 ((0 : Time), (ItemOp.KeepAlive : ItemOp Nat)))
      (NewCacheItem 0 0 0 0 : CacheItem Nat Nat Nat)).AccessCount = maxInt64 := by
  have hcount := keepAliveCalls_replicate (F := Nat) 9223372036854775807 0
  have hval := runOps_AccessCount
    (List.replicate 9223372036854775807 ((0 : Time), (ItemOp.KeepAlive : ItemOp Nat)))
    (NewCacheItem 0 0 0 0 : CacheItem Nat Nat Nat) (by decide) (by decide)
  rw [hcount] at hval
  exact hval.trans wrapInt64_two_pow_63_pred

/-- The last access of an entry is not before its creation as long as every
later call is made at a clock reading not before the creation. -/
theorem runOps_accessedOn_ge (ops : List (Time × ItemOp F)) (item : CacheItem K D F)
    (h0 : item.createdOn ≤ item.accessedOn)
    (hops : ∀ p ∈ ops, item.createdOn ≤ p.1) :
    (runOps ops item).createdOn ≤ (runOps ops item).accessedOn := by
  induction ops generalizing item with
  | nil => exact h0
  | cons p ops ih =>
    rw [runOps_cons]
    have hc : (p.2.exec p.1 item).createdOn = item.createdOn := (exec_frame p.1 p.2 item).2.2.2
    apply ih
    · rw [hc]
      have hp := hops p (List.mem_cons_self _ _)
      cases hop : p.2 <;> first | exact h0 | exact hp
    · intro q hq
      rw [hc]
      exact hops q (List.mem_cons_of_mem _ hq)

/-! ## Lemmas on Go maps -/

namespace GoMap

variable {κ ν : Type} [DecidableEq κ]

theorem find_eq_none_iff (k : κ) (l : List (κ × ν)) :
    find k l = none ↔ k ∉ l.map Prod.fst := by
  induction l with
  | nil => simp [find]
  | cons e rest ih =>
    unfold find
    by_cases h : e.1 = k
    · simp [h]
    · rw [if_neg h, ih]
      simp only [List.map_cons, List.mem_cons, not_or]
      exact ⟨fun hr => ⟨fun hk => h hk.symm, hr⟩, fun hr => hr.2⟩

theorem find_filter_ne (k other : κ) (hne : other ≠ k) (l : List (κ × ν)) :
    find other (l.filter (fun e => e.1 ≠ k)) = find other l := by
  induction l with
  | nil => rfl
  | cons e rest ih =>
    by_cases h : e.1 = k
    · have hf : (e :: rest).filter (fun e => e.1 ≠ k) = rest.filter (fun e => e.1 ≠ k) := by
        simp [List.filter_cons, h]
      have ho : ¬ e.1 = other := fun ho => hne (ho.symm.trans h)
      rw [hf, ih]
      simp [find, ho]
    · have hf : (e :: rest).filter (fun e => e.1 ≠ k) =
          e :: rest.filter (fun e => e.1 ≠ k) := by
        simp [List.filter_cons, h]
      rw [hf]
      unfold find
      rw [ih]

theorem get_empty (k : κ) : (empty : GoMap κ ν).get k = none :=
  rfl

theorem get_set_self (m : GoMap κ ν) (k : κ) (v : ν) : (m.set k v).get k = some v := by
  simp [get, set, find]

theorem get_set_ne (m : GoMap κ ν) (k other : κ) (v : ν) (hne : other ≠ k) :
    (m.set k v).get other = m.get other := by
  have hk : ¬ k = other := fun h => hne h.symm
  simp only [get, set, find, if_neg hk]
  exact find_filter_ne k other hne m.entries

theorem len_set_of_get_none (m : GoMap κ ν) (k : κ) (v : ν) (h : m.get k = none) :
    (m.set k v).len = m.len + 1 := by
  have hk : k ∉ m.entries.map Prod.fst := (find_eq_none_iff k m.entries).mp h
  have hf : m.entries.filter (fun e => e.1 ≠ k) = m.entries := by
    rw [List.filter_eq_self]
    intro e he
    have : e.1 ≠ k := fun hek => hk (hek ▸ List.mem_map_of_mem Prod.fst he)
    simpa using this
  unfold len keys set
  simp only [hf, List.map_cons]
  rw [List.dedup_cons_of_not_mem hk, List.length_cons]

end GoMap

/-! ## Lemmas on `Cache` -/

theorem Cache_of_registered (s : Registry K D F) (table : String) (t : Ptr)
    (h : s.cache.get table = some t) : Cache table s = (t, s) := by
  simp [Cache, Cache.readSection, h]

theorem Cache_of_unregistered (s : Registry K D F) (table : String)
    (h : s.cache.get table = none) :
    Cache table s =
      (s.heap.length,
        { heap := s.heap ++ [{ name := table, items := GoMap.empty }]
          cache := s.cache.set table s.heap.length }) := by
  simp [Cache, Cache.readSection, Cache.writeSection, h]

/-- After `Cache table` the name is registered to the returned pointer. -/
theorem Cache_get_self (s : Registry K D F) (table : String) :
    (Cache table s).2.cache.get table = some (Cache table s).1 := by
  cases h : s.cache.get table with
  | some t => rw [Cache_of_registered s table t h]; exact h
  | none => rw [Cache_of_unregistered s table h]; exact GoMap.get_set_self _ _ _

/-- A registered name keeps its pointer across a `Cache` call of any name. -/
theorem Cache_keeps_registered (s : Registry K D F) (table other : String) (t : Ptr)
    (h : s.cache.get other = some t) : (Cache table s).2.cache.get other = some t := by
  cases hreg : s.cache.get table with
  | some u => rw [Cache_of_registered s table u hreg]; exact h
  | none =>
    rw [Cache_of_unregistered s table hreg]
    have hne : other ≠ table := by
      intro heq
      rw [heq, hreg] at h
      exact Option.noConfusion h
    exact (GoMap.get_set_ne _ _ _ _ hne).trans h

/-- An allocated table keeps its address and its contents across a `Cache`
call of any name. -/
theorem Cache_keeps_allocated (s : Registry K D F) (table : String) (t : Ptr)
    (tb : CacheTable K D F) (h : s.deref t = some tb) :
    (Cache table s).2.deref t = some tb := by
  cases hreg : s.cache.get table with
  | some u => rw [Cache_of_registered s table u hreg]; exact h
  | none =>
    rw [Cache_of_unregistered s table hreg]
    unfold Registry.deref at h ⊢
    have hlt : t < s.heap.length := (List.getElem?_eq_some_iff.mp h).1
    show (s.heap ++ _)[t]? = some tb
    rw [List.getElem?_append_left hlt]
    exact h

theorem initial_consistent : (Registry.initial : Registry K D F).Consistent := by
  constructor
  · intro t tb h
    simp [Registry.deref, Registry.initial] at h
  · intro table t h
    simp [Registry.initial, GoMap.get, GoMap.empty, GoMap.find] at h

theorem Cache_consistent (s : Registry K D F) (table : String) (hs : s.Consistent) :
    (Cache table s).2.Consistent := by
  cases hreg : s.cache.get table with
  | some u => rw [Cache_of_registered s table u hreg]; exact hs
  | none =>
    rw [Cache_of_unregistered s table hreg]
    obtain ⟨h1, h2⟩ := hs
    constructor
    · intro t tb h
      unfold Registry.deref at h
      simp only at h
      by_cases hlt : t < s.heap.length
      · rw [List.getElem?_append_left hlt] at h
        have hold := h1 t tb h
        have hne : tb.name ≠ table := by
          intro heq
          rw [heq, hreg] at hold
          exact Option.noConfusion hold
        exact (GoMap.get_set_ne _ _ _ _ hne).trans hold
      · have hge : s.heap.length ≤ t := Nat.le_of_not_lt hlt
        rw [List.getElem?_append_right hge] at h
        have ht : t = s.heap.length := by
          by_contra hc
          have hpos : 0 < t - s.heap.length :=
            Nat.sub_pos_of_lt (Nat.lt_of_le_of_ne hge (Ne.symm hc))
          obtain ⟨j, hj⟩ := Nat.exists_eq_succ_of_ne_zero (Nat.pos_iff_ne_zero.mp hpos)
          rw [hj] at h
          simp at h
        subst ht
        simp only [Nat.sub_self, List.getElem?_cons_zero, Option.some.injEq] at h
        subst h
        exact GoMap.get_set_self _ _ _
    · intro other t h
      by_cases hne : other = table
      · subst hne
        simp only [GoMap.get_set_self, Option.some.injEq] at h
        subst h
        refine ⟨{ name := other, items := GoMap.empty }, ?_, rfl⟩
        simp [Registry.deref]
      · simp only [GoMap.get_set_ne _ _ _ _ hne] at h
        obtain ⟨tb, htb, hname⟩ := h2 other t h
        refine ⟨tb, ?_, hname⟩
        unfold Registry.deref at htb ⊢
        have hlt : t < s.heap.length := (List.getElem?_eq_some_iff.mp htb).1
        show (s.heap ++ _)[t]? = some tb
        rw [List.getElem?_append_left hlt]
        exact htb

/-! ## Lemmas on sequences of `Cache` calls -/

@[simp]
theorem runCache_nil (s : Registry K D F) : runCache [] s = ([], s) :=
  rfl

@[simp]
theorem runCache_cons (table : String) (rest : List String) (s : Registry K D F) :
    runCache (table :: rest) s =
      ((Cache table s).1 :: (runCache rest (Cache table s).2).1,
        (runCache rest (Cache table s).2).2) :=
  rfl

theorem runCache_append (pre post : List String) (s : Registry K D F) :
    (runCache (pre ++ post) s).2 = (runCache post (runCache pre s).2).2 := by
  induction pre generalizing s with
  | nil => rfl
  | cons table rest ih => simp [ih]

theorem runCache_keeps_registered (names : List String) (s : Registry K D F)
    (other : String) (t : Ptr) (h : s.cache.get other = some t) :
    (runCache names s).2.cache.get other = some t := by
  induction names generalizing s with
  | nil => exact h
  | cons table rest ih =>
    rw [runCache_cons]
    exact ih _ (Cache_keeps_registered s table other t h)

theorem runCache_keeps_allocated (names : List String) (s : Registry K D F)
    (t : Ptr) (tb : CacheTable K D F) (h : s.deref t = some tb) :
    (runCache names s).2.deref t = some tb := by
  induction names generalizing s with
  | nil => exact h
  | cons table rest ih =>
    rw [runCache_cons]
    exact ih _ (Cache_keeps_allocated s table t tb h)

theorem runCache_consistent (names : List String) (s : Registry K D F) (hs : s.Consistent) :
    (runCache names s).2.Consistent := by
  induction names generalizing s with
  | nil => exact hs
  | cons table rest ih =>
    rw [runCache_cons]
    exact ih _ (Cache_consistent s table hs)

/-- The pointer returned by the `i`-th call of a sequence is the one its name
is registered to at the end of the sequence. -/
theorem runCache_result (names : List String) (s : Registry K D F) (i : Nat)
    (table : String) (h : names[i]? = some table) :
    (runCache names s).1[i]? = (runCache names s).2.cache.get table ∧
      ((runCache names s).1[i]?).isSome := by
  induction names generalizing s i with
  | nil => simp at h
  | cons first rest ih =>
    rw [runCache_cons]
    cases i with
    | zero =>
      simp only [List.getElem?_cons_zero, Option.some.injEq] at h
      subst h
      simp only [List.getElem?_cons_zero, Option.isSome_some, and_true]
      exact (runCache_keeps_registered rest _ first _ (Cache_get_self s first)).symm
    | succ i =>
      simp only [List.getElem?_cons_succ] at h ⊢
      exact ih _ i h

/-! ## Lemmas on concurrent calls of `Cache` -/

/-- The write section alone does what the whole of `Cache` does. -/
theorem writeSection_eq_Cache (table : String) (s : Registry K D F) :
    Cache.writeSection table s = Cache table s := by
  cases h : s.cache.get table with
  | some t => simp [Cache, Cache.readSection, Cache.writeSection, h]
  | none => simp [Cache, Cache.readSection, h]

/-- A second `Cache` call of the same name returns the same pointer and
changes nothing. -/
theorem Cache_again (table : String) (s : Registry K D F) :
    Cache table (Cache table s).2 = ((Cache table s).1, (Cache table s).2) :=
  Cache_of_registered _ table _ (Cache_get_self s table)

namespace System

theorem start_coherent (n : Nat) (table : String) (s : Registry K D F) :
    Coherent table s (start n s) := by
  refine ⟨Or.inl rfl, ?_⟩
  intro c hc
  exact Or.inl (List.eq_of_mem_replicate hc)

theorem step_length (table : String) (i : Nat) (sys : System K D F) :
    (sys.step table i).calls.length = sys.calls.length := by
  unfold step
  cases h : sys.calls[i]? with
  | none => rfl
  | some c => simp

theorem run_length (table : String) (sched : List Nat) (sys : System K D F) :
    (run table sched sys).calls.length = sys.calls.length := by
  induction sched generalizing sys with
  | nil => rfl
  | cons i rest ih =>
    show (run table rest (sys.step table i)).calls.length = _
    rw [ih, step_length]

theorem step_coherent (table : String) (s0 : Registry K D F) (i : Nat) (sys : System K D F)
    (h : Coherent table s0 sys) : Coherent table s0 (sys.step table i) := by
  unfold step
  cases hci : sys.calls[i]? with
  | none => exact h
  | some c =>
    obtain ⟨hreg, hcalls⟩ := h
    have hc := hcalls c (List.getElem?_mem hci)
    have hself := Cache_get_self s0 table
    rcases hc with hc | ⟨hc, hmiss⟩ | ⟨hc, hr⟩
    · -- the read section
      subst hc
      cases hread : Cache.readSection table sys.reg with
      | some t =>
        have ht : t = (Cache table s0).1 ∧ sys.reg = (Cache table s0).2 := by
          rcases hreg with hr | hr
          · rw [hr] at hread
            have := Cache_of_registered s0 table t hread
            rw [this]
            exact ⟨rfl, hr⟩
          · rw [hr] at hread
            unfold Cache.readSection at hread
            rw [hself] at hread
            exact ⟨(Option.some.inj hread).symm, hr⟩
        simp only [CallState.step, hread]
        refine ⟨hreg, ?_⟩
        intro d hd
        rcases List.mem_or_eq_of_mem_set hd with hd | hd
        · exact hcalls d hd
        · exact Or.inr (Or.inr ⟨by rw [hd, ht.1], ht.2⟩)
      | none =>
        have hmiss : s0.cache.get table = none := by
          rcases hreg with hr | hr
          · rw [hr] at hread
            exact hread
          · rw [hr] at hread
            unfold Cache.readSection at hread
            rw [hself] at hread
            exact Option.noConfusion hread
        simp only [CallState.step, hread]
        refine ⟨hreg, ?_⟩
        intro d hd
        rcases List.mem_or_eq_of_mem_set hd with hd | hd
        · exact hcalls d hd
        · exact Or.inr (Or.inl ⟨hd, hmiss⟩)
    · -- the write section
      subst hc
      have hw : Cache.writeSection table sys.reg = ((Cache table s0).1, (Cache table s0).2) := by
        rw [writeSection_eq_Cache]
        rcases hreg with hr | hr
        · rw [hr]
        · rw [hr]
          exact Cache_again table s0
      simp only [CallState.step, hw]
      refine ⟨Or.inr rfl, ?_⟩
      intro d hd
      rcases List.mem_or_eq_of_mem_set hd with hd | hd
      · rcases hcalls d hd with hd | hd | ⟨hd, _⟩
        · exact Or.inl hd
        · exact Or.inr (Or.inl hd)
        · exact Or.inr (Or.inr ⟨hd, rfl⟩)
      · exact Or.inr (Or.inr ⟨hd, rfl⟩)
    · -- returned already
      subst hc
      simp only [CallState.step]
      refine ⟨hreg, ?_⟩
      intro d hd
      rcases List.mem_or_eq_of_mem_set hd with hd | hd
      · exact hcalls d hd
      · exact Or.inr (Or.inr ⟨hd, hr⟩)

theorem run_coherent (table : String) (s0 : Registry K D F) (sched : List Nat)
    (sys : System K D F) (h : Coherent table s0 sys) :
    Coherent table s0 (run table sched sys) := by
  induction sched generalizing sys with
  | nil => exact h
  | cons i rest ih => exact ih _ (step_coherent table s0 i sys h)

/-- One step of a call raises its rank, up to 2. -/
theorem rank_step (table : String) (c : CallState) (s : Registry K D F) :
    min 2 (c.rank + 1) ≤ (c.step table s).1.rank := by
  cases c with
  | atRLock =>
    cases h : Cache.readSection table s <;> simp [CallState.step, h, CallState.rank]
  | atLock => simp [CallState.step, CallState.rank]
  | returned t => simp [CallState.step, CallState.rank]

theorem step_progress (table : String) (i j : Nat) (sys : System K D F)
    (hj : j < sys.calls.length) :
    min 2 (sys.progress j + (if i = j then 1 else 0)) ≤ (sys.step table i).progress j := by
  unfold progress step
  by_cases hij : i = j
  · subst hij
    obtain ⟨c, hc⟩ : ∃ c, sys.calls[i]? = some c := ⟨sys.calls[i], List.getElem?_eq_getElem hj⟩
    simp only [hc, List.getElem?_set_self hj, if_true]
    exact rank_step table c sys.reg
  · cases hc : sys.calls[i]? with
    | none => simp [hij]
    | some c => simp [hij, List.getElem?_set_ne hij]

theorem run_progress (table : String) (sched : List Nat) (j : Nat) (sys : System K D F)
    (hj : j < sys.calls.length) :
    min 2 (sys.progress j + sched.count j) ≤ (run table sched sys).progress j := by
  induction sched generalizing sys with
  | nil => simp [run]
  | cons i rest ih =>
    have hstep := step_progress table i j sys hj
    have hrest := ih (sys.step table i) (by rw [step_length]; exact hj)
    show _ ≤ (run table rest (sys.step table i)).progress j
    rw [List.count_cons]
    have hbeq : (if (i == j) = true then 1 else 0) = (if i = j then 1 else 0) := by
      by_cases hij : i = j <;> simp [hij]
    rw [hbeq]
    omega

/-- A goroutine of rank 2 has returned. -/
theorem returned_of_progress (sys : System K D F) (j : Nat) (h : 2 ≤ sys.progress j) :
    ∃ t, sys.calls[j]? = some (.returned t) := by
  unfold progress at h
  cases hc : sys.calls[j]? with
  | none => simp [hc] at h
  | some c =>
    cases c with
    | atRLock => simp [hc, CallState.rank] at h
    | atLock => simp [hc, CallState.rank] at h
    | returned t => exact ⟨t, rfl⟩

end System

/-- In a consistent package state exactly one allocated table has a
registered name. -/
theorem Consistent.unique_table (s : Registry K D F) (hs : s.Consistent) (table : String)
    (t : Ptr) (h : s.cache.get table = some t) :
    ∃! u, ∃ tb, s.deref u = some tb ∧ tb.name = table := by
  obtain ⟨tb, htb, hname⟩ := hs.2 table t h
  refine ⟨t, ⟨tb, htb, hname⟩, ?_⟩
  rintro u ⟨ub, hub, hun⟩
  have := hs.1 u ub hub
  rw [hun, h] at this
  exact (Option.some.inj this).symm

/-! ## Lemmas on the registered names -/

theorem GoMap.keys_nodup {κ ν : Type} [DecidableEq κ] (m : GoMap κ ν) : m.keys.Nodup :=
  List.nodup_dedup _

theorem GoMap.mem_keys_iff {κ ν : Type} [DecidableEq κ] (m : GoMap κ ν) (k : κ) :
    k ∈ m.keys ↔ (m.get k).isSome = true := by
  unfold GoMap.keys GoMap.get
  rw [List.mem_dedup]
  cases h : GoMap.find k m.entries with
  | none =>
    have := (GoMap.find_eq_none_iff k m.entries).mp h
    simp [this]
  | some v =>
    have hne : ¬ GoMap.find k m.entries = none := by simp [h]
    have := fun hk => hne ((GoMap.find_eq_none_iff k m.entries).mpr hk)
    simp only [Option.isSome_some, iff_true]
    exact Classical.not_not.mp this

theorem GoMap.len_empty {κ ν : Type} [DecidableEq κ] : (GoMap.empty : GoMap κ ν).len = 0 :=
  rfl

/-- A `Cache` call leaves the entry of every other name as it was. -/
theorem Cache_get_other (s : Registry K D F) (table other : String) (hne : other ≠ table) :
    (Cache table s).2.cache.get other = s.cache.get other := by
  cases hreg : s.cache.get table with
  | some u => rw [Cache_of_registered s table u hreg]
  | none =>
    rw [Cache_of_unregistered s table hreg]
    exact GoMap.get_set_ne _ _ _ _ hne

theorem runCache_registered_iff (names : List String) (s : Registry K D F) (n : String) :
    ((runCache names s).2.cache.get n).isSome = true ↔
      (s.cache.get n).isSome = true ∨ n ∈ names := by
  induction names generalizing s with
  | nil => simp
  | cons table rest ih =>
    rw [runCache_cons, ih, List.mem_cons]
    by_cases hn : n = table
    · subst hn
      rw [Cache_get_self]
      simp
    · rw [Cache_get_other s table n hn]
      simp [hn]

/-- The tables allocated and the names registered stay equal in number. -/
theorem Cache_heap_len (s : Registry K D F) (table : String)
    (h : s.heap.length = s.cache.len) :
    (Cache table s).2.heap.length = (Cache table s).2.cache.len := by
  cases hreg : s.cache.get table with
  | some u => rw [Cache_of_registered s table u hreg]; exact h
  | none =>
    rw [Cache_of_unregistered s table hreg]
    show (s.heap ++ _).length = (s.cache.set table s.heap.length).len
    rw [GoMap.len_set_of_get_none _ _ _ hreg, List.length_append, h]
    rfl

theorem runCache_heap_len (names : List String) (s : Registry K D F)
    (h : s.heap.length = s.cache.len) :
    (runCache names s).2.heap.length = (runCache names s).2.cache.len := by
  induction names generalizing s with
  | nil => exact h
  | cons table rest ih =>
    rw [runCache_cons]
    exact ih _ (Cache_heap_len s table h)

theorem after_consistent (names : List String) :
    (Registry.after names : Registry K D F).Consistent :=
  runCache_consistent names Registry.initial initial_consistent

/-- In a consistent package state two different names are registered to two
different pointers. -/
theorem Consistent.ptr_ne (s : Registry K D F) (hs : s.Consistent) (n1 n2 : String)
    (t1 t2 : Ptr) (h1 : s.cache.get n1 = some t1) (h2 : s.cache.get n2 = some t2)
    (hne : n1 ≠ n2) : t1 ≠ t2 := by
  intro heq
  obtain ⟨tb1, hd1, hn1⟩ := hs.2 n1 t1 h1
  obtain ⟨tb2, hd2, hn2⟩ := hs.2 n2 t2 h2
  rw [heq, hd2] at hd1
  have := Option.some.inj hd1
  rw [← hn1, ← hn2, this] at hne
  exact hne rfl

/-! ## Claims on the table registry (cache.go) -/

/-- C1. For every package state and every name already registered,
`Cache(name)` returns exactly the pointer registered under that name and
leaves the package state unchanged: the map `cache` is the same (no entry
added, removed or replaced), the heap is the same, and so the returned table
still holds the items it held. -/
theorem Cache_returns_registered_table (s : Registry K D F) (table : String) (t : Ptr)
    (h : s.cache.get table = some t) :
    (Cache table s).1 = t ∧ (Cache table s).2 = s ∧
    (Cache table s).2.cache = s.cache ∧ (Cache table s).2.heap = s.heap ∧
    (Cache table s).2.deref (Cache table s).1 = s.deref t := by
  rw [Cache_of_registered s table t h]
  exact ⟨rfl, rfl, rfl, rfl, rfl⟩

/-- Instance of `Cache_returns_registered_table`: the table `"sessions"`
keeps its entry. -/
theorem Cache_returns_registered_table_witness :
    (Cache "sessions" registryWithSessions).1 = 0 ∧
    (Cache "sessions" registryWithSessions).2 = registryWithSessions ∧
    (Cache "sessions" registryWithSessions).2.cache = registryWithSessions.cache ∧
    (Cache "sessions" registryWithSessions).2.heap = registryWithSessions.heap ∧
    (Cache "sessions" registryWithSessions).2.deref (Cache "sessions" registryWithSessions).1 =
      registryWithSessions.deref 0 :=
  Cache_returns_registered_table registryWithSessions "sessions" 0 (by decide)

/-- C2. For every package state and every name not registered, `Cache(name)`
returns a pointer that was not allocated before, to a new table whose name is
the requested name and whose item map is empty, and registers it: afterwards
a lookup of the name yields the returned pointer, the number of registered
names has grown by exactly one, the entry of every other name is unchanged,
and every table allocated before is unchanged. -/
theorem Cache_registers_new_table (s : Registry K D F) (table : String)
    (h : s.cache.get table = none) :
    s.deref (Cache table s).1 = none ∧
    (Cache table s).2.deref (Cache table s).1 =
      some { name := table, items := GoMap.empty } ∧
    (Cache table s).2.cache.get table = some (Cache table s).1 ∧
    (Cache table s).2.cache.len = s.cache.len + 1 ∧
    (∀ other, other ≠ table → (Cache table s).2.cache.get other = s.cache.get other) ∧
    (∀ u, u < s.heap.length → (Cache table s).2.deref u = s.deref u) := by
  rw [Cache_of_unregistered s table h]
  refine ⟨?_, ?_, ?_, ?_, ?_, ?_⟩
  · simp [Registry.deref]
  · simp [Registry.deref]
  · exact GoMap.get_set_self _ _ _
  · exact GoMap.len_set_of_get_none _ _ _ h
  · intro other hne
    exact GoMap.get_set_ne _ _ _ _ hne
  · intro u hu
    show (s.heap ++ _)[u]? = s.heap[u]?
    exact List.getElem?_append_left hu

/-- Instance of `Cache_registers_new_table`: the first request of `"users"`
next to the registered table `"sessions"`. -/
theorem Cache_registers_new_table_witness :
    registryWithSessions.deref (Cache "users" registryWithSessions).1 = none ∧
    (Cache "users" registryWithSessions).2.deref (Cache "users" registryWithSessions).1 =
      some { name := "users", items := GoMap.empty } ∧
    (Cache "users" registryWithSessions).2.cache.get "users" =
      some (Cache "users" registryWithSessions).1 ∧
    (Cache "users" registryWithSessions).2.cache.len = registryWithSessions.cache.len + 1 ∧
    (∀ other, other ≠ "users" →
      (Cache "users" registryWithSessions).2.cache.get other =
        registryWithSessions.cache.get other) ∧
    (∀ u, u < registryWithSessions.heap.length →
      (Cache "users" registryWithSessions).2.deref u = registryWithSessions.deref u) :=
  Cache_registers_new_table registryWithSessions "users" (by decide)

/-- C3. For every sequence of `Cache` calls made one after another from the
empty registry: any two calls of the sequence with the same name return the
same pointer; a name registered after an initial part of the sequence is
registered to the same pointer at the end (no later call replaces or removes
it); and at the end no two allocated tables have the same name, so at most one
table instance exists per name. -/
theorem Cache_one_table_per_name (names : List String) :
    (∀ (i j : Nat) (table : String), names[i]? = some table → names[j]? = some table →
      ∃ t, (runCache names (Registry.initial : Registry K D F)).1[i]? = some t ∧
        (runCache names (Registry.initial : Registry K D F)).1[j]? = some t) ∧
    (∀ pre post other u, names = pre ++ post →
      (runCache pre (Registry.initial : Registry K D F)).2.cache.get other = some u →
      (runCache names (Registry.initial : Registry K D F)).2.cache.get other = some u) ∧
    (∀ t u tb ub,
      (runCache names (Registry.initial : Registry K D F)).2.deref t = some tb →
      (runCache names (Registry.initial : Registry K D F)).2.deref u = some ub →
      tb.name = ub.name → t = u) := by
  refine ⟨?_, ?_, ?_⟩
  · intro i j table hi hj
    obtain ⟨ei, si⟩ := runCache_result names (Registry.initial : Registry K D F) i table hi
    obtain ⟨ej, _⟩ := runCache_result names (Registry.initial : Registry K D F) j table hj
    obtain ⟨t, ht⟩ := Option.isSome_iff_exists.mp si
    refine ⟨t, ht, ?_⟩
    rw [ej, ← ei]
    exact ht
  · intro pre post other u hsplit hreg
    rw [hsplit, runCache_append]
    exact runCache_keeps_registered post _ other u hreg
  · intro t u tb ub ht hu hname
    have hc := runCache_consistent names (Registry.initial : Registry K D F) initial_consistent
    have h1 := hc.1 t tb ht
    have h2 := hc.1 u ub hu
    rw [hname, h2] at h1
    exact (Option.some.inj h1).symm

/-- Instance of `Cache_one_table_per_name`: of the calls `"a"`, `"b"`, `"a"`
the first and the third return the same pointer. -/
theorem Cache_one_table_per_name_witness :
    (runCache ["a", "b", "a"] (Registry.initial : Registry Nat Nat Nat)).1[0]? =
      (runCache ["a", "b", "a"] (Registry.initial : Registry Nat Nat Nat)).1[2]? := by
  obtain ⟨t, h0, h2⟩ :=
    (Cache_one_table_per_name (K := Nat) (D := Nat) (F := Nat) ["a", "b", "a"]).1
      0 2 "a" rfl rfl
  exact h0.trans h2.symm

/-- C4. Let `n > 0` goroutines call `Cache(table)` concurrently in any
package state, their lock acquisitions happening in any order `sched`.
Every goroutine returns after at most two acquisitions of its own; and once
all have returned, all `n` calls have returned the same pointer, the one a
single uninterrupted call returns, and the package state is the one after that
single call: when the name was not registered exactly one table was
constructed (the heap has grown by one table of that name), and in a
consistent package state exactly one allocated table has that name. -/
theorem Cache_concurrent_one_table (n : Nat) (table : String) (s : Registry K D F)
    (sched : List Nat) (hn : 0 < n) :
    ((∀ i, i < n → 2 ≤ sched.count i) →
      (System.run table sched (System.start n s)).allReturned = true) ∧
    ((System.run table sched (System.start n s)).allReturned = true →
      (System.run table sched (System.start n s)).calls =
        List.replicate n (CallState.returned (Cache table s).1) ∧
      (System.run table sched (System.start n s)).reg = (Cache table s).2 ∧
      (s.cache.get table = none →
        (System.run table sched (System.start n s)).reg.heap =
          s.heap ++ [{ name := table, items := GoMap.empty }]) ∧
      (s.Consistent →
        ∃! u, ∃ tb, (System.run table sched (System.start n s)).reg.deref u = some tb ∧
          tb.name = table)) := by
  have hlen : (System.run table sched (System.start n s)).calls.length = n := by
    rw [System.run_length]
    simp [System.start]
  have hcoh := System.run_coherent table s sched _ (System.start_coherent n table s)
  constructor
  · intro hsched
    unfold System.allReturned
    rw [List.all_eq_true]
    intro c hc
    obtain ⟨j, hj⟩ := List.mem_iff_getElem?.mp hc
    have hjn : j < n := by
      rw [← hlen]
      exact (List.getElem?_eq_some_iff.mp hj).1
    have hprog := System.run_progress table sched j (System.start n s)
      (by simpa [System.start] using hjn)
    have h2 := hsched j hjn
    have hle : 2 ≤ (System.run table sched (System.start n s)).progress j := by omega
    obtain ⟨t, ht⟩ := System.returned_of_progress _ j hle
    rw [hj] at ht
    rw [Option.some.inj ht]
    rfl
  · intro hall
    unfold System.allReturned at hall
    rw [List.all_eq_true] at hall
    have hret : ∀ c ∈ (System.run table sched (System.start n s)).calls,
        c = CallState.returned (Cache table s).1 ∧
          (System.run table sched (System.start n s)).reg = (Cache table s).2 := by
      intro c hc
      have hrank := hall c hc
      rcases hcoh.2 c hc with h | ⟨h, _⟩ | h
      · rw [h] at hrank
        simp [CallState.rank] at hrank
      · rw [h] at hrank
        simp [CallState.rank] at hrank
      · exact h
    have hreg : (System.run table sched (System.start n s)).reg = (Cache table s).2 := by
      have h0 : 0 < (System.run table sched (System.start n s)).calls.length := by
        rw [hlen]
        exact hn
      exact (hret _ (List.getElem_mem h0)).2
    refine ⟨?_, hreg, ?_, ?_⟩
    · rw [List.eq_replicate_iff]
      exact ⟨hlen, fun c hc => (hret c hc).1⟩
    · intro hmiss
      rw [hreg, Cache_of_unregistered s table hmiss]
    · intro hs
      rw [hreg]
      exact Consistent.unique_table _ (Cache_consistent s table hs) table _
        (Cache_get_self s table)

/-- Instance of `Cache_concurrent_one_table`: three goroutines request `"x"`
from the empty registry; goroutines 0 and 1 both miss in their read section,
goroutine 1 constructs the table, goroutine 2 finds it in its read section and
goroutine 0 finds it in its write section. -/
theorem Cache_concurrent_one_table_witness :
    (System.run "x" [0, 1, 1, 2, 0, 2]
        (System.start 3 (Registry.initial : Registry Nat Nat Nat))).calls =
      List.replicate 3 (CallState.returned (Cache "x" (Registry.initial : Registry Nat Nat Nat)).1) ∧
    (System.run "x" [0, 1, 1, 2, 0, 2]
        (System.start 3 (Registry.initial : Registry Nat Nat Nat))).reg.heap =
      [{ name := "x", items := GoMap.empty }] :=
  have h := Cache_concurrent_one_table 3 "x" (Registry.initial : Registry Nat Nat Nat)
    [0, 1, 1, 2, 0, 2] (by decide)
  have hdone := h.2 (h.1 (by decide))
  ⟨hdone.1, hdone.2.2.1 rfl⟩

/-- C12. For every package state reached from the empty registry by `Cache`
calls and every name (the empty string included), `Cache(name)` returns a
pointer to an allocated table whose `name` field is the requested name; every
registered table's name is the key it is registered under; two different
registered names have two different tables; and every later call with a
different name returns a different pointer. -/
theorem Cache_table_name_is_key (earlier : List String) (table : String) :
    (∃ tb, (Cache table (Registry.after earlier : Registry K D F)).2.deref
        (Cache table (Registry.after earlier : Registry K D F)).1 = some tb ∧
      tb.name = table) ∧
    (∀ other t, (Registry.after earlier : Registry K D F).cache.get other = some t →
      ∃ tb, (Registry.after earlier : Registry K D F).deref t = some tb ∧ tb.name = other) ∧
    (∀ n1 n2 t1 t2, (Registry.after earlier : Registry K D F).cache.get n1 = some t1 →
      (Registry.after earlier : Registry K D F).cache.get n2 = some t2 → n1 ≠ n2 → t1 ≠ t2) ∧
    (∀ later other, other ≠ table →
      (Cache other (runCache later
          (Cache table (Registry.after earlier : Registry K D F)).2).2).1 ≠
        (Cache table (Registry.after earlier : Registry K D F)).1) := by
  have hs : (Registry.after earlier : Registry K D F).Consistent := after_consistent earlier
  have hs1 := Cache_consistent _ table hs
  refine ⟨?_, hs.2, ?_, ?_⟩
  · exact hs1.2 table _ (Cache_get_self _ table)
  · intro n1 n2 t1 t2 h1 h2 hne
    exact Consistent.ptr_ne _ hs n1 n2 t1 t2 h1 h2 hne
  · intro later other hne
    have hs2 := Cache_consistent _ other (runCache_consistent later _ hs1)
    have hother := Cache_get_self
      (runCache later (Cache table (Registry.after earlier : Registry K D F)).2).2 other
    have hkept := runCache_keeps_registered later
      (Cache table (Registry.after earlier : Registry K D F)).2 table _
      (Cache_get_self (Registry.after earlier : Registry K D F) table)
    have htable := Cache_keeps_registered
      (runCache later (Cache table (Registry.after earlier : Registry K D F)).2).2
      other table _ hkept
    exact Consistent.ptr_ne _ hs2 other table _ _ hother htable hne

/-- Instance of `Cache_table_name_is_key`: after the calls `"a"`, `"b"` the
request of the empty name returns a table named by the empty string. -/
theorem Cache_table_name_is_key_witness :
    ∃ tb, (Cache "" (Registry.after ["a", "b"] : Registry Nat Nat Nat)).2.deref
        (Cache "" (Registry.after ["a", "b"] : Registry Nat Nat Nat)).1 = some tb ∧
      tb.name = "" :=
  (Cache_table_name_is_key (K := Nat) (D := Nat) (F := Nat) ["a", "b"] "").1

/-- C13. Run without interference, the double-checked `Cache` (lookup under
the read lock, then on a miss a second lookup under the write lock and the
construction if that misses too) equals the single-step get-or-insert, in the
pointer returned and in the resulting package state, in every package state
and for every name; and the second lookup, whenever it is run, reads what the
first lookup read, so it never finds a table. -/
theorem Cache_eq_getOrInsert (table : String) (s : Registry K D F) :
    Cache table s = getOrInsert table s ∧
    (Cache table s).1 = (getOrInsert table s).1 ∧
    (Cache table s).2 = (getOrInsert table s).2 ∧
    (∀ r, Cache.recheck table s = some r → r = Cache.readSection table s) ∧
    (∀ t, Cache.recheck table s ≠ some (some t)) := by
  have heq : Cache table s = getOrInsert table s := by
    cases h : s.cache.get table with
    | some t => simp [Cache, Cache.readSection, getOrInsert, h]
    | none => simp [Cache, Cache.readSection, Cache.writeSection, getOrInsert, h]
  refine ⟨heq, by rw [heq], by rw [heq], ?_, ?_⟩
  · intro r hr
    unfold Cache.recheck at hr
    cases h : Cache.readSection table s with
    | some t => simp [h] at hr
    | none =>
      simp only [h, Option.some.injEq] at hr
      rw [← hr]
      exact h
  · intro t ht
    unfold Cache.recheck at ht
    cases h : Cache.readSection table s with
    | some u => simp [h] at ht
    | none =>
      simp only [h, Option.some.injEq] at ht
      unfold Cache.readSection at h
      rw [h] at ht
      exact Option.noConfusion ht

/-- C14. For every finite sequence of `Cache` calls made one after another
from the empty registry, a name is registered afterwards exactly when it was
requested in the sequence; the registered names are the distinct requested
names, each once; and the number of registered names and the number of
allocated tables both equal the number of distinct requested names. -/
theorem registered_names_are_requested (names : List String) :
    (∀ n, ((Registry.after names : Registry K D F).cache.get n).isSome = true ↔ n ∈ names) ∧
    (Registry.after names : Registry K D F).cache.keys.Perm names.dedup ∧
    (Registry.after names : Registry K D F).cache.len = names.dedup.length ∧
    (Registry.after names : Registry K D F).heap.length = names.dedup.length := by
  have hiff : ∀ n, ((Registry.after names : Registry K D F).cache.get n).isSome = true ↔
      n ∈ names := by
    intro n
    unfold Registry.after
    rw [runCache_registered_iff]
    simp [Registry.initial, GoMap.get_empty]
  have hperm : (Registry.after names : Registry K D F).cache.keys.Perm names.dedup := by
    rw [List.perm_ext_iff_of_nodup (GoMap.keys_nodup _) (List.nodup_dedup _)]
    intro n
    rw [GoMap.mem_keys_iff, hiff, List.mem_dedup]
  have hlen : (Registry.after names : Registry K D F).cache.len = names.dedup.length :=
    hperm.length_eq
  refine ⟨hiff, hperm, hlen, ?_⟩
  rw [← hlen]
  exact runCache_heap_len names Registry.initial rfl

/-- Instance of `registered_names_are_requested`: of the four calls `"a"`,
`"b"`, `"a"`, `""` three tables result. -/
theorem registered_names_are_requested_witness :
    (Registry.after ["a", "b", "a", ""] : Registry Nat Nat Nat).heap.length = 3 :=
  (registered_names_are_requested (K := Nat) (D := Nat) (F := Nat)
    ["a", "b", "a", ""]).2.2.2.trans (by decide)

/-! ## Claims on cache entries (cacheitem.go) -/

/-- C5. `NewCacheItem(key, lifeSpan, data)` called at clock reading `now`
returns an entry with `Key() = key`, `LifeSpan() = lifeSpan` (whatever its
sign), `Data() = data`, `CreatedOn() = AccessedOn() = now`, `AccessCount() = 0`
and no about-to-expire callback. The constructor is a total function. -/
theorem NewCacheItem_fields (now : Time) (key : K) (lifeSpan : Duration) (data : D) :
    (NewCacheItem now key lifeSpan data : CacheItem K D F).Key = key ∧
    (NewCacheItem now key lifeSpan data : CacheItem K D F).LifeSpan = lifeSpan ∧
    (NewCacheItem now key lifeSpan data : CacheItem K D F).Data = data ∧
    (NewCacheItem now key lifeSpan data : CacheItem K D F).CreatedOn = now ∧
    (NewCacheItem now key lifeSpan data : CacheItem K D F).AccessedOn = now ∧
    (NewCacheItem now key lifeSpan data : CacheItem K D F).AccessCount = 0 ∧
    (NewCacheItem now key lifeSpan data : CacheItem K D F).aboutToExpire = none :=
  ⟨rfl, rfl, rfl, rfl, rfl, rfl, rfl⟩

/-- C6, refuted as stated. On the entry whose counter is `math.MaxInt64`,
`KeepAlive()` does not yield the previous count plus one: the `int64`
increment wraps and `AccessCount()` is `math.MinInt64` afterwards. -/
theorem KeepAlive_at_maxInt64_not_succ :
    (entryAtMaxCount.KeepAlive 1).AccessCount = minInt64 ∧
    ¬ ((entryAtMaxCount.KeepAlive 1).AccessCount = entryAtMaxCount.AccessCount + 1) := by
  decide

/-- C6, amended. For every entry whose counter is an `int64` below
`math.MaxInt64`, `KeepAlive()` called at clock reading `now` yields an entry
whose `AccessedOn()` is exactly `now` and whose `AccessCount()` is exactly the
previous count plus one. -/
theorem KeepAlive_below_max (now : Time) (item : CacheItem K D F)
    (hlo : minInt64 ≤ item.AccessCount) (hhi : item.AccessCount < maxInt64) :
    (item.KeepAlive now).AccessedOn = now ∧
    (item.KeepAlive now).AccessCount = item.AccessCount + 1 := by
  refine ⟨rfl, ?_⟩
  show wrapInt64 (item.accessCount + 1) = item.accessCount + 1
  have h1 : minInt64 ≤ item.accessCount := hlo
  have h2 : item.accessCount < maxInt64 := hhi
  apply wrapInt64_of_inRange <;> omega

/-- Instance of `KeepAlive_below_max`: a fresh entry kept alive at reading 7. -/
theorem KeepAlive_below_max_witness :
    ((NewCacheItem 3 10 50 20 : CacheItem Nat Nat Nat).KeepAlive 7).AccessedOn = 7 ∧
    ((NewCacheItem 3 10 50 20 : CacheItem Nat Nat Nat).KeepAlive 7).AccessCount =
      (NewCacheItem 3 10 50 20 : CacheItem Nat Nat Nat).AccessCount + 1 :=
  KeepAlive_below_max 7 (NewCacheItem 3 10 50 20) (by decide) (by decide)

/-- C7, refuted as stated. After exactly `2^63` `KeepAlive` calls on a fresh
entry `AccessCount()` is `math.MinInt64`, not `2^63`. -/
theorem accessCount_after_two_pow_63_calls :
    keepAliveCalls (List.replicate 9223372036854775808 ((0 : Time), (ItemOp.KeepAlive : ItemOp Nat)))
        = 9223372036854775808 ∧
    (runOps (List.replicate 9223372036854775808 ((0 : Time), (ItemOp.KeepAlive : ItemOp Nat)))
        (NewCacheItem 0 0 0 0 : CacheItem Nat Nat Nat)).AccessCount = minInt64 ∧
    ¬ ((runOps (List.replicate 9223372036854775808 ((0 : Time), (ItemOp.KeepAlive : ItemOp Nat)))
        (NewCacheItem 0 0 0 0 : CacheItem Nat Nat Nat)).AccessCount =
      ((9223372036854775808 : Nat) : Int)) := by
  have hcount := keepAliveCalls_replicate (F := Nat) 9223372036854775808 0
  have hval := runOps_AccessCount
    (List.replicate 9223372036854775808 ((0 : Time), (ItemOp.KeepAlive : ItemOp Nat)))
    (NewCacheItem 0 0 0 0 : CacheItem Nat Nat Nat) (by decide) (by decide)
  rw [hcount] at hval
  have hmin := hval.trans wrapInt64_two_pow_63
  refine ⟨hcount, hmin, ?_⟩
  rw [hmin]
  decide

/-- C7, amended. For every entry created by `NewCacheItem` and every history
of calls on it (`KeepAlive`, `SetAboutToExpireCallback` and getters, in any
order) with fewer than `2^63` `KeepAlive` calls, `AccessCount()` equals the
number of `KeepAlive` calls in the history. -/
theorem accessCount_eq_keepAliveCalls (t0 : Time) (key : K) (lifeSpan : Duration) (data : D)
    (ops : List (Time × ItemOp F)) (hn : keepAliveCalls ops < 9223372036854775808) :
    (runOps ops (NewCacheItem t0 key lifeSpan data)).AccessCount = (keepAliveCalls ops : Int) := by
  show (runOps ops (NewCacheItem t0 key lifeSpan data)).accessCount = _
  rw [runOps_accessCount _ _ (show minInt64 ≤ (0 : Int) by decide)
    (show (0 : Int) ≤ maxInt64 by decide)]
  show wrapInt64 (0 + (keepAliveCalls ops : Int)) = _
  rw [zero_add]
  apply wrapInt64_of_inRange
  · unfold minInt64
    omega
  · unfold maxInt64
    omega

/-- Instance of `accessCount_eq_keepAliveCalls`: two `KeepAlive` calls among
a callback change and two getter calls. -/
theorem accessCount_eq_keepAliveCalls_witness :
    (runOps [(5, ItemOp.KeepAlive), (6, ItemOp.SetAboutToExpireCallback (some 3)),
        (6, ItemOp.AccessCount), (7, ItemOp.KeepAlive), (8, ItemOp.Data)]
      (NewCacheItem 1 10 50 20 : CacheItem Nat Nat Nat)).AccessCount = ((2 : Nat) : Int) :=
  accessCount_eq_keepAliveCalls 1 10 50 20
    [(5, ItemOp.KeepAlive), (6, ItemOp.SetAboutToExpireCallback (some 3)),
      (6, ItemOp.AccessCount), (7, ItemOp.KeepAlive), (8, ItemOp.Data)] (by decide)

/-- C8. For every entry created by `NewCacheItem` at reading `t0` and every
history of calls on it whose clock readings never decrease (starting from
`t0`), `accessedOn >= createdOn` holds after every step of the history, that
is after every initial part `ops.take k` of it. -/
theorem accessedOn_ge_createdOn (t0 : Time) (key : K) (lifeSpan : Duration) (data : D)
    (ops : List (Time × ItemOp F))
    (hclock : List.Chain' (fun a b : Time => a ≤ b) (t0 :: ops.map Prod.fst)) (k : Nat) :
    (runOps (ops.take k) (NewCacheItem t0 key lifeSpan data)).CreatedOn ≤
      (runOps (ops.take k) (NewCacheItem t0 key lifeSpan data)).AccessedOn := by
  have hpw : List.Pairwise (fun a b : Time => a ≤ b) (t0 :: ops.map Prod.fst) :=
    List.chain'_iff_pairwise.mp hclock
  have hall : ∀ p ∈ ops, t0 ≤ p.1 := by
    intro p hp
    exact (List.pairwise_cons.mp hpw).1 p.1 (List.mem_map_of_mem Prod.fst hp)
  apply runOps_accessedOn_ge
  · exact le_refl t0
  · intro p hp
    exact hall p (List.mem_of_mem_take hp)

/-- Instance of `accessedOn_ge_createdOn`: a history at readings 3, 3, 5 on
an entry created at reading 3, looked at after its second call. -/
theorem accessedOn_ge_createdOn_witness :
    (runOps (List.take 2 [((3 : Time), (ItemOp.KeepAlive : ItemOp Nat)),
        (3, ItemOp.SetAboutToExpireCallback none), (5, ItemOp.KeepAlive)])
      (NewCacheItem 3 10 (-1) 20 : CacheItem Nat Nat Nat)).CreatedOn ≤
    (runOps (List.take 2 [((3 : Time), (ItemOp.KeepAlive : ItemOp Nat)),
        (3, ItemOp.SetAboutToExpireCallback none), (5, ItemOp.KeepAlive)])
      (NewCacheItem 3 10 (-1) 20 : CacheItem Nat Nat Nat)).AccessedOn :=
  accessedOn_ge_createdOn 3 10 (-1) 20
    [((3 : Time), (ItemOp.KeepAlive : ItemOp Nat)),
      (3, ItemOp.SetAboutToExpireCallback none), (5, ItemOp.KeepAlive)] (by simp) 2

/-- C9, refuted as stated. On the entry whose counter is `math.MaxInt64`,
`KeepAlive()` yields a smaller `AccessCount()` than before, not a strictly
greater one. -/
theorem KeepAlive_at_maxInt64_decreases :
    (entryAtMaxCount.KeepAlive 1).AccessCount < entryAtMaxCount.AccessCount ∧
    ¬ (entryAtMaxCount.AccessCount < (entryAtMaxCount.KeepAlive 1).AccessCount) := by
  decide

/-- C9, amended. For every entry whose counter is an `int64` below
`math.MaxInt64`, no call on the entry yields a smaller `AccessCount()` than
before (every call other than `KeepAlive` leaves it equal), and `KeepAlive`
yields a strictly greater one. -/
theorem accessCount_increases_below_max (now : Time) (op : ItemOp F) (item : CacheItem K D F)
    (hlo : minInt64 ≤ item.AccessCount) (hhi : item.AccessCount < maxInt64) :
    item.AccessCount ≤ (op.exec now item).AccessCount ∧
    (op.exec now item).AccessCount =
      (if op.isKeepAlive then item.AccessCount + 1 else item.AccessCount) ∧
    item.AccessCount < (item.KeepAlive now).AccessCount := by
  have h1 : minInt64 ≤ item.accessCount := hlo
  have h2 : item.accessCount < maxInt64 := hhi
  have hw : wrapInt64 (item.accessCount + 1) = item.accessCount + 1 := by
    apply wrapInt64_of_inRange <;> omega
  have hstep : (op.exec now item).accessCount =
      (if op.isKeepAlive then item.accessCount + 1 else item.accessCount) := by
    rw [exec_accessCount, hw]
  have hka : (item.KeepAlive now).accessCount = item.accessCount + 1 := hw
  refine ⟨?_, hstep, ?_⟩
  · show item.accessCount ≤ (op.exec now item).accessCount
    rw [hstep]
    split <;> omega
  · show item.accessCount < (item.KeepAlive now).accessCount
    rw [hka]
    omega

/-- Instance of `accessCount_increases_below_max`: `KeepAlive` at reading 7 on
a fresh entry. -/
theorem accessCount_increases_below_max_witness :
    (NewCacheItem 3 10 50 20 : CacheItem Nat Nat Nat).AccessCount ≤
      (ItemOp.KeepAlive.exec 7 (NewCacheItem 3 10 50 20 : CacheItem Nat Nat Nat)).AccessCount ∧
    ((ItemOp.KeepAlive : ItemOp Nat).exec 7
        (NewCacheItem 3 10 50 20 : CacheItem Nat Nat Nat)).AccessCount =
      (if (ItemOp.KeepAlive : ItemOp Nat).isKeepAlive
        then (NewCacheItem 3 10 50 20 : CacheItem Nat Nat Nat).AccessCount + 1
        else (NewCacheItem 3 10 50 20 : CacheItem Nat Nat Nat).AccessCount) ∧
    (NewCacheItem 3 10 50 20 : CacheItem Nat Nat Nat).AccessCount <
      ((NewCacheItem 3 10 50 20 : CacheItem Nat Nat Nat).KeepAlive 7).AccessCount :=
  accessCount_increases_below_max 7 ItemOp.KeepAlive (NewCacheItem 3 10 50 20)
    (by decide) (by decide)

/-- C10. `key`, `data`, `lifeSpan` and `createdOn` are immutable after
construction: `KeepAlive` at any clock reading and
`SetAboutToExpireCallback` with any argument leave `Key()`, `Data()`,
`LifeSpan()` and `CreatedOn()` as they were, on every entry; hence after any
history of calls on an entry made by `NewCacheItem` the four getters return
the values given to (and the clock reading of) `NewCacheItem`. -/
theorem immutable_after_construction (now : Time) (f : Option F) (item : CacheItem K D F)
    (t0 : Time) (key : K) (lifeSpan : Duration) (data : D) (ops : List (Time × ItemOp F)) :
    ((item.KeepAlive now).Key = item.Key ∧ (item.KeepAlive now).Data = item.Data ∧
      (item.KeepAlive now).LifeSpan = item.LifeSpan ∧
      (item.KeepAlive now).CreatedOn = item.CreatedOn) ∧
    ((item.SetAboutToExpireCallback f).Key = item.Key ∧
      (item.SetAboutToExpireCallback f).Data = item.Data ∧
      (item.SetAboutToExpireCallback f).LifeSpan = item.LifeSpan ∧
      (item.SetAboutToExpireCallback f).CreatedOn = item.CreatedOn) ∧
    ((runOps ops (NewCacheItem t0 key lifeSpan data)).Key = key ∧
      (runOps ops (NewCacheItem t0 key lifeSpan data)).Data = data ∧
      (runOps ops (NewCacheItem t0 key lifeSpan data)).LifeSpan = lifeSpan ∧
      (runOps ops (NewCacheItem t0 key lifeSpan data)).CreatedOn = t0) :=
  ⟨⟨rfl, rfl, rfl, rfl⟩, ⟨rfl, rfl, rfl, rfl⟩,
    runOps_frame ops (NewCacheItem t0 key lifeSpan data)⟩

/-- C11. For every entry and every callback argument `f`,
`SetAboutToExpireCallback(f)` makes the entry's about-to-expire callback
exactly `f` whatever it was before: after setting `f` and then `g` it is `g`,
after passing the absent (nil) callback the entry has no callback; and
`AccessedOn()` and `AccessCount()` are unchanged by the call. -/
theorem SetAboutToExpireCallback_replaces (f g : Option F) (item : CacheItem K D F) :
    (item.SetAboutToExpireCallback f).aboutToExpire = f ∧
    ((item.SetAboutToExpireCallback f).SetAboutToExpireCallback g).aboutToExpire = g ∧
    (item.SetAboutToExpireCallback none).aboutToExpire = none ∧
    (item.SetAboutToExpireCallback f).AccessedOn = item.AccessedOn ∧
    (item.SetAboutToExpireCallback f).AccessCount = item.AccessCount :=
  ⟨rfl, rfl, rfl, rfl, rfl⟩

end Cache2go
